import Mathlib

/-!
Verification of the rotational-closures reef model
(`RotationalClosuresModel.py`): a shallow embedding, over `ℚ`, of the
management forcing function `square_signal`, the dispersal matrix built by
`initialize_patch_model`, the reaction kernels `leemput`, `blackwood` and
`rass_briggs`, the right-hand-side assembler `patch_system`, the recovery-time
scan `get_coral_recovery_time`, and the bisection routine
`find_unstable_equilibrium`.  The external ODE solver (`scipy.odeint`) is out
of scope and enters only as data: a trajectory handed to the analysis
routines, or a drift oracle handed to the bisection.
-/

/-- Python's `%` operator on rationals: `a % b = a - b * floor (a / b)`
(the form Python's `%` takes for a nonzero divisor `b`). -/
def py_mod (a b : ℚ) : ℚ := a - b * ⌊a / b⌋

/-- Python's `int()` cast: truncation toward zero. -/
def py_int (x : ℚ) : ℤ := if 0 ≤ x then ⌊x⌋ else -⌊-x⌋

/-- The `start` slot computed inside `square_signal`:
`start = int((t % (n*closure_length))/closure_length)` when
`closure_length != 0`, else `0`. -/
def start_of (t cl : ℚ) (n : ℤ) : ℤ :=
  if cl ≠ 0 then py_int (py_mod t ((n : ℚ) * cl) / cl) else 0

/-- The `end` local of `square_signal`'s periodic branch (renamed `end_of`,
`end` being a Lean keyword): `(start + m - 1) % n` in the wraparound case
`start + m - 1 >= n`, else `start + m - 1`. -/
def end_of (start m n : ℤ) : ℤ :=
  if start + m - 1 ≥ n then (start + m - 1) % n else start + m - 1

/-- Embedding of `square_signal(t, closure_length, region, m, n, poaching, mgmt_strat)`:
the instantaneous fishing-pressure multiplier for patch `region`.
For a strategy other than `"periodic"` and `"MPA"` the Python function falls
through returning `None`; that unreachable branch is modelled as `0` and is
exercised by no theorem below. -/
def square_signal (t cl : ℚ) (region m n : ℤ) (poaching : ℚ)
    (mgmt_strat : String) : ℚ :=
  if mgmt_strat = "periodic" then
    if region ≥ start_of t cl n ∧ region ≤ end_of (start_of t cl n) m n then
      poaching
    else if start_of t cl n + m - 1 ≥ n ∧
        (region ≥ start_of t cl n ∨ region ≤ end_of (start_of t cl n) m n) then
      poaching
    else (1 - ((m : ℚ) / (n : ℚ)) * poaching) / (1 - (m : ℚ) / (n : ℚ))
  else if mgmt_strat = "MPA" then
    if m = 0 then 1
    else if m = n then poaching
    else if region ≤ m then poaching
    else (1 - ((m : ℚ) / (n : ℚ)) * poaching) / (1 - (m : ℚ) / (n : ℚ))
  else 0

/-- The `Model` object: configuration, management parameters, the biological
parameter fields that `setattr` installs from `load_parameters`, and the
scratch derivative arrays `dPs`, `dCs`, `dMs`, `dMvs`, `dMis` that
`initialize_patch_model` allocates and `patch_system` writes into.
Arrays are modelled as total functions `ℕ → ℚ`. -/
structure Model where
  model_type : String
  n : ℕ
  frac_nomove : ℚ
  mgmt_strat : String
  f : ℚ
  closure_length : ℚ
  m : ℤ
  poaching : ℚ
  kP : ℕ → ℕ → ℚ
  r : ℚ
  i_C : ℚ
  i_M : ℚ
  gamma : ℚ
  d : ℚ
  g : ℚ
  s : ℚ
  sigma : ℚ
  eta : ℚ
  alpha : ℚ
  beta : ℚ
  a : ℚ
  phiC : ℚ
  phiM : ℚ
  rM : ℚ
  gTC : ℚ
  gTV : ℚ
  gTI : ℚ
  rH : ℚ
  omega : ℚ
  dC : ℚ
  dI : ℚ
  dV : ℚ
  K : ℚ
  Graze : ℚ
  dPs : ℕ → ℚ
  dCs : ℕ → ℚ
  dMs : ℕ → ℚ
  dMvs : ℕ → ℚ
  dMis : ℕ → ℚ

/-- Embedding of `K(sigma, C) = (1-sigma)+sigma*C`, the Leemput carrying-capacity factor. -/
def K (sigma C : ℚ) : ℚ := (1 - sigma) + sigma * C

/-- Embedding of `BMK(C) = 1 - 0.5*C`, the Blackwood-Mumby carrying-capacity factor. -/
def BMK (C : ℚ) : ℚ := 1 - 0.5 * C

/-- The `leemput` reaction kernel: per-patch derivatives `[dP, dC, dM]`.
State layout: `P = X[0..n)`, `C = X[n..2n)`, `M = X[2n..3n)`. -/
def leemput (X : ℕ → ℚ) (t : ℚ) (i : ℕ) (md : Model) (Pinflux : ℕ → ℚ) :
    List ℚ :=
  let P : ℕ → ℚ := fun j => X j
  let C : ℕ → ℚ := fun j => X (md.n + j)
  let M : ℕ → ℚ := fun j => X (2 * md.n + j)
  let dP := Pinflux i + md.s * P i * (1 - P i / K md.sigma (C i))
    - md.f * P i *
      square_signal t md.closure_length (i : ℤ) md.m (md.n : ℤ) md.poaching
        md.mgmt_strat
  let dC := (md.i_C + md.r * C i) * (1 - M i - C i) * (1 - md.alpha * M i)
    - md.d * C i
  let dM := (md.i_M + md.gamma * M i) * (1 - M i - C i)
    - md.g * M i * P i / (md.g * md.eta * M i + 1)
  [dP, dC, dM]

/-- The `blackwood` reaction kernel: per-patch derivatives `[dP, dC, dM]`. -/
def blackwood (X : ℕ → ℚ) (t : ℚ) (i : ℕ) (md : Model) (Pinflux : ℕ → ℚ) :
    List ℚ :=
  let P : ℕ → ℚ := fun j => X j
  let C : ℕ → ℚ := fun j => X (md.n + j)
  let M : ℕ → ℚ := fun j => X (2 * md.n + j)
  let dP := Pinflux i + md.s * P i * (1 - P i / (md.beta * BMK (C i)))
    - md.f * P i *
      square_signal t md.closure_length (i : ℤ) md.m (md.n : ℤ) md.poaching
        md.mgmt_strat
  let dC := md.r * (1 - M i - C i) * C i - md.d * C i - md.a * M i * C i
    + 0.0005 * md.i_C * (1 - M i - C i)
  let dM := md.a * M i * C i - md.alpha * P i / md.beta * M i * (1 / (1 - C i))
    + md.gamma * M i * (1 - M i - C i) + 0.0075 * md.i_M * (1 - M i - C i)
  [dP, dC, dM]

/-- The `rass_briggs` reaction kernel: per-patch derivatives
`[dP, dC, dMv, dMi]`.  State layout: `P = X[0..n)`, `C = X[n..2n)`,
`Mv = X[2n..3n)`, `Mi = X[3n..4n)`. -/
def rass_briggs (X : ℕ → ℚ) (t : ℚ) (i : ℕ) (md : Model) (Pinflux : ℕ → ℚ) :
    List ℚ :=
  let P : ℕ → ℚ := fun j => X j
  let C : ℕ → ℚ := fun j => X (md.n + j)
  let Mv : ℕ → ℚ := fun j => X (2 * md.n + j)
  let Mi : ℕ → ℚ := fun j => X (3 * md.n + j)
  let T := 1 - C i - Mv i - Mi i
  let dP := Pinflux i + md.rH * P i * (1 - P i / md.K)
    - md.f * P i *
      square_signal t md.closure_length (i : ℤ) md.m (md.n : ℤ) md.poaching
        md.mgmt_strat
  let dC := md.phiC * T + md.gTC * T * C i - md.gamma * md.gTI * Mi i * C i
    - md.dC * C i
  let dMv := md.phiM * T + md.rM * T * Mi i + md.gTV * T * Mv i
    - md.dV * Mv i - P i * Mv i * md.Graze - md.omega * Mv i
  let dMi := md.omega * Mv i + md.gTI * T * Mi i
    + md.gamma * md.gTI * Mi i * C i - md.dI * Mi i
  [dP, dC, dMv, dMi]

/-- The dispersal influx `P_influx[i] = sum_j kP[i][j] * X[j]` accumulated by
the inner loop of `patch_system`. -/
def P_influx (n : ℕ) (kP : ℕ → ℕ → ℚ) (X : ℕ → ℚ) (i : ℕ) : ℚ :=
  ∑ j in Finset.range n, kP i j * X j

/-- The per-patch dispatch of `patch_system` on `model_type`: the six
recognized tags, and the `else` branch which prints
`"Bad input, defaulting to Blackwood-Mumby!"` and runs `blackwood`. -/
def patch_rhs (X : ℕ → ℚ) (t : ℚ) (md : Model) (Pinflux : ℕ → ℚ) (i : ℕ) :
    List ℚ :=
  if md.model_type = "RB" then rass_briggs X t i md Pinflux
  else if md.model_type = "BM" then blackwood X t i md Pinflux
  else if md.model_type = "vdL_PC" then leemput X t i md Pinflux
  else if md.model_type = "vdL_MP" then leemput X t i md Pinflux
  else if md.model_type = "vdL_MC" then leemput X t i md Pinflux
  else if md.model_type = "vdL" then leemput X t i md Pinflux
  else blackwood X t i md Pinflux

/-- Embedding of `patch_system(X, t, system_model)`: the full right-hand side.  The Python
loop writes `results` into the scratch arrays stored on the model object
(`system_model.dPs[i] = results[0]`, ...); iteration `i` writes only index `i`
and reads none of the scratch arrays, so the loop's net effect on the model is
the functional array update below.  The pair returned is (model object after
the call, concatenated derivative vector). -/
def patch_system (X : ℕ → ℚ) (t : ℚ) (md : Model) : Model × List ℚ :=
  let influx : ℕ → ℚ := P_influx md.n md.kP X
  let res : ℕ → List ℚ := fun i => patch_rhs X t md influx i
  let col : ℕ → List ℚ :=
    fun k => (List.range md.n).map (fun i => (res i).getD k 0)
  let upd : (ℕ → ℚ) → ℕ → (ℕ → ℚ) := fun old k =>
    fun i => if i < md.n then (res i).getD k 0 else old i
  if md.model_type = "RB" then
    ({ md with dPs := upd md.dPs 0, dCs := upd md.dCs 1, dMvs := upd md.dMvs 2, dMis := upd md.dMis 3 },
      col 0 ++ col 1 ++ col 2 ++ col 3)
  else
    ({ md with dPs := upd md.dPs 0, dCs := upd md.dCs 1, dMs := upd md.dMs 2 },
      col 0 ++ col 1 ++ col 2)

/-- The dispersal coefficient of `initialize_patch_model`:
`frac_dispersed = (1-frac_nomove)*(1/n)`. -/
def frac_dispersed (n : ℕ) (frac_nomove : ℚ) : ℚ :=
  (1 - frac_nomove) * (1 / (n : ℚ))

/-- The dispersal matrix `kP` built by `initialize_patch_model` (and
identically by `RB_initialize_patch_model`): off-diagonal entries
`frac_dispersed`, diagonal entries `-frac_dispersed*(n-1)`. -/
def kP_matrix (n : ℕ) (frac_nomove : ℚ) (i j : ℕ) : ℚ :=
  if i = j then -(frac_dispersed n frac_nomove) * ((n : ℚ) - 1)
  else frac_dispersed n frac_nomove

/-- Embedding of `get_coral_recovery_time`, applied to the coral trajectory
`coralsol = MPAsol[:, n]` of the reference patch (the solver run producing it
is the external black box; the trajectory is passed in).  The scan picks the
first index whose value exceeds the model-family threshold, `-1` when none
does, and the function returns that value plus `10`. -/
def get_coral_recovery_time (model_type : String) (coralsol : List ℚ) : ℤ :=
  let high_coral_eq : ℚ :=
    if model_type = "RB" then 0.5 else if model_type = "BM" then 0.54 else 0.7
  let coral_recovery_time : ℤ :=
    match coralsol.findIdx? (fun state => high_coral_eq < state) with
    | some i => (i : ℤ)
    | none => -1
  coral_recovery_time + 10

/-- Embedding of `find_unstable_equilibrium(t, lowC=0.1, highC=0.7, recursion_depth=0)`.
The end-of-run coral drift `mid_sol[len(t)-1][1] - midpoint` produced by the
external solver is abstracted as the oracle `drift midpoint`.  The recursive
calls are transcribed literally: going up passes `lowC = midpoint` and lets
`highC` revert to its default `0.7`; going down passes `highC = midpoint` and
lets `lowC` revert to its default `0.1`. -/
def find_unstable_equilibrium (drift : ℚ → ℚ) (lowC highC : ℚ)
    (recursion_depth : ℕ) : ℚ :=
  let midpoint := (lowC + highC) / 2
  if h : recursion_depth > 10 then midpoint
  else if 0 < drift midpoint then
    find_unstable_equilibrium drift midpoint 0.7 (recursion_depth + 1)
  else if drift midpoint < 0 then
    find_unstable_equilibrium drift 0.1 midpoint (recursion_depth + 1)
  else midpoint
termination_by 11 - recursion_depth
decreasing_by all_goals omega

/-- A base `Model` value used to build the concrete instances appearing in
counterexamples and witnesses: every numeric field `0`, every array `0`. -/
def mdBase : Model where
  model_type := "vdL"
  n := 1
  frac_nomove := 0
  mgmt_strat := "MPA"
  f := 0
  closure_length := 0
  m := 0
  poaching := 0
  kP := fun _ _ => 0
  r := 0
  i_C := 0
  i_M := 0
  gamma := 0
  d := 0
  g := 0
  s := 0
  sigma := 0
  eta := 0
  alpha := 0
  beta := 1
  a := 0
  phiC := 0
  phiM := 0
  rM := 0
  gTC := 0
  gTV := 0
  gTI := 0
  rH := 0
  omega := 0
  dC := 0
  dI := 0
  dV := 0
  K := 1
  Graze := 0
  dPs := fun _ => 0
  dCs := fun _ => 0
  dMs := fun _ => 0
  dMvs := fun _ => 0
  dMis := fun _ => 0

/-- The drift oracle used against the bisection routine: coral grows back
toward `1/2` (grows below it, shrinks above it). -/
def driftToHalf (x : ℚ) : ℚ := if x < 1/2 then 1 else -1

/-! ## Helper lemmas -/

/-- The slot `start_of t cl n` always lies in `[0, n)` for `n ≥ 1` and a
nonnegative closure length. -/
theorem start_of_bounds (t cl : ℚ) (n : ℤ) (hn : 1 ≤ n) (hcl : 0 ≤ cl) :
    0 ≤ start_of t cl n ∧ start_of t cl n < n := by
  unfold start_of
  by_cases hc : cl = 0
  · rw [if_neg (not_not_intro hc)]
    exact ⟨le_refl 0, by omega⟩
  · have hclpos : 0 < cl := lt_of_le_of_ne hcl (Ne.symm hc)
    have hnpos : (0 : ℚ) < (n : ℚ) := by exact_mod_cast lt_of_lt_of_le one_pos hn
    have hb : (0 : ℚ) < (n : ℚ) * cl := mul_pos hnpos hclpos
    have h1 : py_mod t ((n : ℚ) * cl) = ((n : ℚ) * cl) * Int.fract (t / ((n : ℚ) * cl)) := by
      unfold py_mod Int.fract
      field_simp
    have hfr0 : 0 ≤ Int.fract (t / ((n : ℚ) * cl)) := Int.fract_nonneg _
    have hfr1 : Int.fract (t / ((n : ℚ) * cl)) < 1 := Int.fract_lt_one _
    have hxval : py_mod t ((n : ℚ) * cl) / cl = (n : ℚ) * Int.fract (t / ((n : ℚ) * cl)) := by
      rw [h1]
      field_simp
      ring
    have hx0 : 0 ≤ py_mod t ((n : ℚ) * cl) / cl := by
      rw [hxval]
      positivity
    have hxn : py_mod t ((n : ℚ) * cl) / cl < (n : ℚ) := by
      rw [hxval]
      calc (n : ℚ) * Int.fract (t / ((n : ℚ) * cl)) < (n : ℚ) * 1 := by
            exact mul_lt_mul_of_pos_left hfr1 hnpos
        _ = (n : ℚ) := mul_one _
    rw [if_pos hc]
    unfold py_int
    rw [if_pos hx0]
    refine ⟨Int.floor_nonneg.mpr hx0, ?_⟩
    exact Int.floor_lt.mpr (by exact_mod_cast hxn)

/-- Sum of a function constant on an integer interval. -/
theorem sum_const_on_Ico (a b : ℤ) (c : ℚ) (f : ℤ → ℚ) (hab : a ≤ b)
    (hf : ∀ r ∈ Finset.Ico a b, f r = c) :
    ∑ r in Finset.Ico a b, f r = ((b - a : ℤ) : ℚ) * c := by
  rw [Finset.sum_congr rfl hf, Finset.sum_const, Int.card_Ico, nsmul_eq_mul]
  congr 1
  have h : ((b - a).toNat : ℤ) = b - a := Int.toNat_of_nonneg (by omega)
  exact_mod_cast congrArg (fun z : ℤ => (z : ℚ)) h

/-- Splitting a sum over `Ico 0 n` at two interior points. -/
theorem sum_Ico_three_split (n a b : ℤ) (f : ℤ → ℚ) (h0 : 0 ≤ a) (hab : a ≤ b)
    (hbn : b ≤ n) :
    ∑ r in Finset.Ico (0 : ℤ) n, f r =
      (∑ r in Finset.Ico (0 : ℤ) a, f r) + (∑ r in Finset.Ico a b, f r)
        + ∑ r in Finset.Ico b n, f r := by
  rw [← Finset.Ico_union_Ico_eq_Ico h0 (le_trans hab hbn)]
  rw [Finset.sum_union (Finset.Ico_disjoint_Ico_consecutive 0 a n)]
  rw [← Finset.Ico_union_Ico_eq_Ico hab hbn]
  rw [Finset.sum_union (Finset.Ico_disjoint_Ico_consecutive a b n)]
  ring

/-- The open-patch value rewritten over a common denominator. -/
theorem open_value_eq (m n : ℤ) (p : ℚ) (hn : 1 ≤ n) (hmn : m < n) :
    (1 - ((m : ℚ) / (n : ℚ)) * p) / (1 - (m : ℚ) / (n : ℚ)) =
      ((n : ℚ) - (m : ℚ) * p) / ((n : ℚ) - (m : ℚ)) := by
  have hn0 : ((n : ℚ)) ≠ 0 := by
    have : (0 : ℚ) < (n : ℚ) := by exact_mod_cast lt_of_lt_of_le one_pos hn
    exact ne_of_gt this
  have hnm : ((n : ℚ)) - (m : ℚ) ≠ 0 := by
    have : (m : ℚ) < (n : ℚ) := by exact_mod_cast hmn
    intro h
    nlinarith
  rw [div_eq_div_iff]
  · field_simp
  · intro h
    apply hnm
    have : (m : ℚ) / (n : ℚ) = 1 := by linarith
    have h2 : (m : ℚ) = (n : ℚ) := by
      field_simp at this
      linarith
    linarith
  · exact hnm

/-- First closed test of the periodic branch: `start <= region <= end`. -/
theorem sig_closed1 (t cl p : ℚ) (r m n : ℤ) (h1 : r ≥ start_of t cl n)
    (h2 : r ≤ end_of (start_of t cl n) m n) :
    square_signal t cl r m n p "periodic" = p := by
  unfold square_signal
  rw [if_pos rfl, if_pos ⟨h1, h2⟩]

/-- Second closed test of the periodic branch (wraparound). -/
theorem sig_closed2 (t cl p : ℚ) (r m n : ℤ)
    (hw : start_of t cl n + m - 1 ≥ n)
    (h1 : ¬(r ≥ start_of t cl n ∧ r ≤ end_of (start_of t cl n) m n))
    (h2 : r ≥ start_of t cl n ∨ r ≤ end_of (start_of t cl n) m n) :
    square_signal t cl r m n p "periodic" = p := by
  unfold square_signal
  rw [if_pos rfl, if_neg h1, if_pos ⟨hw, h2⟩]

/-- Open branch of the periodic strategy. -/
theorem sig_open (t cl p : ℚ) (r m n : ℤ)
    (h1 : ¬(r ≥ start_of t cl n ∧ r ≤ end_of (start_of t cl n) m n))
    (h2 : ¬(start_of t cl n + m - 1 ≥ n ∧
      (r ≥ start_of t cl n ∨ r ≤ end_of (start_of t cl n) m n))) :
    square_signal t cl r m n p "periodic" =
      (1 - ((m : ℚ) / (n : ℚ)) * p) / (1 - (m : ℚ) / (n : ℚ)) := by
  unfold square_signal
  rw [if_pos rfl, if_neg h1, if_neg h2]

/-! ## C7: `m = n` closes everything under both strategies -/

/-- C7: for `m = n` (every patch closed) the forcing multiplier
`square_signal(t, closure_length, region, n, n, poaching, strategy)` equals
`poaching` for every patch index `region` in `[0, n-1]` and every time `t`,
under both the `'periodic'` and `'MPA'` strategies. -/
theorem C7_all_closed_poaching (t cl p : ℚ) (n r : ℤ) (hn : 1 ≤ n)
    (hr0 : 0 ≤ r) (hrn : r < n) (hcl : 0 ≤ cl) :
    square_signal t cl r n n p "periodic" = p ∧
      square_signal t cl r n n p "MPA" = p := by
  obtain ⟨hs0, hsn⟩ := start_of_bounds t cl n hn hcl
  constructor
  · by_cases hw : start_of t cl n + n - 1 ≥ n
    · have he : end_of (start_of t cl n) n n = start_of t cl n - 1 := by
        unfold end_of
        rw [if_pos hw]
        rw [show start_of t cl n + n - 1 = start_of t cl n - 1 + n * 1 by ring]
        rw [Int.add_mul_emod_self_left]
        exact Int.emod_eq_of_lt (by omega) (by omega)
      exact sig_closed2 t cl p r n n hw (by rw [he]; omega) (by rw [he]; omega)
    · have hs : start_of t cl n = 0 := by omega
      have he : end_of (start_of t cl n) n n = n - 1 := by
        unfold end_of
        rw [if_neg hw]
        omega
      exact sig_closed1 t cl p r n n (by rw [hs]; omega) (by rw [he]; omega)
  · unfold square_signal
    rw [if_neg (by decide), if_pos rfl, if_neg (by omega), if_pos rfl]

/-- Witness for C7 at `n = 2`, `region = 1`, `closure_length = 1`, `t = 5`,
`poaching = 1/2`. -/
theorem C7_witness :
    ((1 : ℤ) ≤ 2 ∧ (0 : ℤ) ≤ 1 ∧ (1 : ℤ) < 2 ∧ (0 : ℚ) ≤ 1) ∧
      square_signal 5 1 1 2 2 (1/2) "periodic" = 1/2 ∧
        square_signal 5 1 1 2 2 (1/2) "MPA" = 1/2 :=
  ⟨by norm_num,
    C7_all_closed_poaching 5 1 (1/2) 2 1 (by norm_num) (by norm_num)
      (by norm_num) (by norm_num)⟩

/-! ## C8: `m = 0` under PERIODIC is the identity multiplier -/

/-- C8: for `m = 0` under the `'periodic'` strategy, `square_signal` returns
exactly `1` for every patch index and every time, and the denominator
`1 - m/n` of the open-patch formula equals `1` (no division by zero). -/
theorem C8_m_zero_periodic_one (t cl p : ℚ) (n r : ℤ) (hn : 1 ≤ n)
    (hcl : 0 ≤ cl) :
    square_signal t cl r 0 n p "periodic" = 1 ∧
      (1 : ℚ) - ((0 : ℤ) : ℚ) / (n : ℚ) = 1 := by
  obtain ⟨hs0, hsn⟩ := start_of_bounds t cl n hn hcl
  have he : end_of (start_of t cl n) 0 n = start_of t cl n - 1 := by
    unfold end_of
    rw [if_neg (by omega)]
    omega
  refine ⟨?_, by norm_num⟩
  rw [sig_open t cl p r 0 n (by rw [he]; omega) (by intro h; omega)]
  norm_num

/-- Witness for C8 at `n = 3`, `region = 2`, `closure_length = 2`, `t = 7`,
`poaching = 1/3`. -/
theorem C8_witness :
    ((1 : ℤ) ≤ 3 ∧ (0 : ℚ) ≤ 2) ∧
      square_signal 7 2 2 0 3 (1/3) "periodic" = 1 ∧
        (1 : ℚ) - ((0 : ℤ) : ℚ) / ((3 : ℤ) : ℚ) = 1 :=
  ⟨by norm_num,
    C8_m_zero_periodic_one 7 2 (1/3) 3 2 (by norm_num) (by norm_num)⟩

/-- In the wraparound case with `m < n`, `end` is `start + m - 1 - n`. -/
theorem end_of_wrap (s m n : ℤ) (hs0 : 0 ≤ s) (hsn : s < n) (hm : m ≤ n)
    (hw : s + m - 1 ≥ n) :
    end_of s m n = s + m - 1 - n := by
  unfold end_of
  rw [if_pos hw]
  conv_lhs => rw [show s + m - 1 = s + m - 1 - n + n * 1 by ring]
  rw [Int.add_mul_emod_self_left]
  exact Int.emod_eq_of_lt (by omega) (by omega)

/-- The sum of the PERIODIC multiplier over all patches splits into `m`
closed patches at `poaching` and `n - m` open patches at the open value,
in both the wraparound and the non-wraparound branch. -/
theorem periodic_sum_split (t cl p : ℚ) (m n : ℤ) (hn : 1 ≤ n) (hm0 : 0 ≤ m)
    (hmn : m < n) (hcl : 0 ≤ cl) :
    ∑ r in Finset.Ico (0 : ℤ) n, square_signal t cl r m n p "periodic" =
      (m : ℚ) * p + ((n : ℚ) - (m : ℚ)) *
        ((1 - ((m : ℚ) / (n : ℚ)) * p) / (1 - (m : ℚ) / (n : ℚ))) := by
  obtain ⟨hs0, hsn⟩ := start_of_bounds t cl n hn hcl
  by_cases hw : start_of t cl n + m - 1 ≥ n
  · -- wraparound: closed = [0, start+m-1-n] ∪ [start, n-1]
    have he : end_of (start_of t cl n) m n = start_of t cl n + m - 1 - n :=
      end_of_wrap _ m n hs0 hsn (le_of_lt hmn) hw
    have hA : ∑ r in Finset.Ico (0 : ℤ) (start_of t cl n + m - n),
        square_signal t cl r m n p "periodic" =
        ((start_of t cl n + m - n - 0 : ℤ) : ℚ) * p := by
      apply sum_const_on_Ico _ _ _ _ (by omega)
      intro r hr
      simp only [Finset.mem_Ico] at hr
      exact sig_closed2 t cl p r m n hw (by rw [he]; omega) (by rw [he]; omega)
    have hB : ∑ r in Finset.Ico (start_of t cl n + m - n) (start_of t cl n),
        square_signal t cl r m n p "periodic" =
        ((start_of t cl n - (start_of t cl n + m - n) : ℤ) : ℚ) *
          ((1 - ((m : ℚ) / (n : ℚ)) * p) / (1 - (m : ℚ) / (n : ℚ))) := by
      apply sum_const_on_Ico _ _ _ _ (by omega)
      intro r hr
      simp only [Finset.mem_Ico] at hr
      exact sig_open t cl p r m n (by rw [he]; omega) (by rw [he]; omega)
    have hC : ∑ r in Finset.Ico (start_of t cl n) n,
        square_signal t cl r m n p "periodic" =
        ((n - start_of t cl n : ℤ) : ℚ) * p := by
      apply sum_const_on_Ico _ _ _ _ (by omega)
      intro r hr
      simp only [Finset.mem_Ico] at hr
      exact sig_closed2 t cl p r m n hw (by rw [he]; omega) (by rw [he]; omega)
    rw [sum_Ico_three_split n (start_of t cl n + m - n) (start_of t cl n) _
      (by omega) (by omega) (by omega), hA, hB, hC]
    push_cast
    ring
  · -- no wraparound: closed = [start, start+m-1]
    have he : end_of (start_of t cl n) m n = start_of t cl n + m - 1 := by
      unfold end_of
      rw [if_neg hw]
    have hA : ∑ r in Finset.Ico (0 : ℤ) (start_of t cl n),
        square_signal t cl r m n p "periodic" =
        ((start_of t cl n - 0 : ℤ) : ℚ) *
          ((1 - ((m : ℚ) / (n : ℚ)) * p) / (1 - (m : ℚ) / (n : ℚ))) := by
      apply sum_const_on_Ico _ _ _ _ (by omega)
      intro r hr
      simp only [Finset.mem_Ico] at hr
      exact sig_open t cl p r m n (by rw [he]; omega) (by rw [he]; omega)
    have hB : ∑ r in Finset.Ico (start_of t cl n) (start_of t cl n + m),
        square_signal t cl r m n p "periodic" =
        ((start_of t cl n + m - start_of t cl n : ℤ) : ℚ) * p := by
      apply sum_const_on_Ico _ _ _ _ (by omega)
      intro r hr
      simp only [Finset.mem_Ico] at hr
      exact sig_closed1 t cl p r m n (by omega) (by rw [he]; omega)
    have hC : ∑ r in Finset.Ico (start_of t cl n + m) n,
        square_signal t cl r m n p "periodic" =
        ((n - (start_of t cl n + m) : ℤ) : ℚ) *
          ((1 - ((m : ℚ) / (n : ℚ)) * p) / (1 - (m : ℚ) / (n : ℚ))) := by
      apply sum_const_on_Ico _ _ _ _ (by omega)
      intro r hr
      simp only [Finset.mem_Ico] at hr
      exact sig_open t cl p r m n (by rw [he]; omega) (by rw [he]; omega)
    rw [sum_Ico_three_split n (start_of t cl n) (start_of t cl n + m) _
      (by omega) (by omega) (by omega), hA, hB, hC]
    push_cast
    ring

/-! ## C1: conservation of effort under PERIODIC -/

/-- C1 (amended: `m < n`): for every patch count `n ≥ 1`, every number of
closed patches `m` with `0 ≤ m < n`, every `poaching ∈ [0,1]`, every
`closure_length ≥ 0` and every time `t`, the arithmetic mean over the `n`
patch indices of the PERIODIC multiplier equals exactly `1`, covering both
the wraparound and the non-wraparound branch of the closed-window test.
(For `m = n` every patch is closed and the mean is `poaching`, not `1`;
see the counterexample.) -/
theorem C1_mean_one_of_m_lt_n (t cl p : ℚ) (m n : ℤ) (hn : 1 ≤ n)
    (hm0 : 0 ≤ m) (hmn : m < n) (hcl : 0 ≤ cl) (hp0 : 0 ≤ p) (hp1 : p ≤ 1) :
    (∑ r in Finset.Ico (0 : ℤ) n, square_signal t cl r m n p "periodic")
      / (n : ℚ) = 1 := by
  rw [periodic_sum_split t cl p m n hn hm0 hmn hcl]
  rw [open_value_eq m n p hn hmn]
  have hn0 : ((n : ℚ)) ≠ 0 := by
    have : (0 : ℚ) < (n : ℚ) := by exact_mod_cast lt_of_lt_of_le one_pos hn
    exact ne_of_gt this
  have hnm : ((n : ℚ)) - (m : ℚ) ≠ 0 := by
    have : (m : ℚ) < (n : ℚ) := by exact_mod_cast hmn
    intro h
    nlinarith
  field_simp

/-- Counterexample to C1 as stated (with `m = n` allowed): at
`n = 2, m = 2, poaching = 0, closure_length = 1, t = 0` both patches are
closed, the multiplier is `0` everywhere, and the mean is `0`, not `1`. -/
theorem C1_counterexample :
    (∑ r in Finset.Ico (0 : ℤ) 2, square_signal 0 1 r 2 2 0 "periodic")
      / (2 : ℚ) ≠ 1 := by
  have hs : start_of 0 1 2 = 0 := by norm_num [start_of, py_mod, py_int]
  have he : end_of (start_of 0 1 2) 2 2 = 1 := by
    rw [hs]
    unfold end_of
    norm_num
  have hsum : ∑ r in Finset.Ico (0 : ℤ) 2, square_signal 0 1 r 2 2 0 "periodic"
      = ((2 - 0 : ℤ) : ℚ) * 0 := by
    apply sum_const_on_Ico _ _ _ _ (by omega)
    intro r hr
    simp only [Finset.mem_Ico] at hr
    exact sig_closed1 0 1 0 r 2 2 (by rw [hs]; omega) (by rw [he]; omega)
  rw [hsum]
  norm_num

/-- Witness for C1 at `n = 4, m = 1, poaching = 0, closure_length = 1,
t = 0` (the spec's own worked example: mean `(0 + 3·(4/3))/4 = 1`). -/
theorem C1_witness :
    ((1 : ℤ) ≤ 4 ∧ (0 : ℤ) ≤ 1 ∧ (1 : ℤ) < 4 ∧ (0 : ℚ) ≤ 1 ∧ (0 : ℚ) ≤ 0 ∧
        (0 : ℚ) ≤ 1) ∧
      (∑ r in Finset.Ico (0 : ℤ) 4, square_signal 0 1 r 1 4 0 "periodic")
        / (4 : ℚ) = 1 :=
  ⟨by norm_num,
    C1_mean_one_of_m_lt_n 0 1 0 1 4 (by norm_num) (by norm_num) (by norm_num)
      (by norm_num) (by norm_num) (by norm_num)⟩

/-! ## C9: MPA closes `m+1` patches and breaks conservation -/

/-- The MPA branch for `0 < m < n` reduces to the `region <= m` test. -/
theorem sig_mpa (t cl p : ℚ) (r m n : ℤ) (hm0 : m ≠ 0) (hmn : m ≠ n) :
    square_signal t cl r m n p "MPA" =
      if r ≤ m then p
      else (1 - ((m : ℚ) / (n : ℚ)) * p) / (1 - (m : ℚ) / (n : ℚ)) := by
  unfold square_signal
  rw [if_neg (by decide), if_pos rfl, if_neg hm0, if_neg hmn]

/-- C9: under the `'MPA'` strategy with `0 < m < n`, `square_signal` returns
`poaching` for exactly the `m+1` patch indices `0, ..., m` (the test is
`region <= m`, inclusive) and the open-patch value for the remaining
`n-m-1` indices; consequently, whenever `poaching < 1`, the mean of the
multiplier over all `n` patches is strictly less than `1`. -/
theorem C9_MPA_split_mean_lt_one (t cl p : ℚ) (m n : ℤ) (hn : 1 ≤ n)
    (hm0 : 0 < m) (hmn : m < n) :
    (∀ r : ℤ, 0 ≤ r → r ≤ m → square_signal t cl r m n p "MPA" = p) ∧
      (∀ r : ℤ, m < r → r < n → square_signal t cl r m n p "MPA" =
        (1 - ((m : ℚ) / (n : ℚ)) * p) / (1 - (m : ℚ) / (n : ℚ))) ∧
      (p < 1 →
        (∑ r in Finset.Ico (0 : ℤ) n, square_signal t cl r m n p "MPA")
          / (n : ℚ) < 1) := by
  have hm0' : m ≠ 0 := by omega
  have hmn' : m ≠ n := by omega
  refine ⟨?_, ?_, ?_⟩
  · intro r _ hrm
    rw [sig_mpa t cl p r m n hm0' hmn', if_pos hrm]
  · intro r hrm _
    rw [sig_mpa t cl p r m n hm0' hmn', if_neg (by omega)]
  · intro hp
    have hnpos : (0 : ℚ) < (n : ℚ) := by exact_mod_cast lt_of_lt_of_le one_pos hn
    have hmq : (m : ℚ) < (n : ℚ) := by exact_mod_cast hmn
    have hnm : (0 : ℚ) < (n : ℚ) - (m : ℚ) := by linarith
    have hsum : ∑ r in Finset.Ico (0 : ℤ) n, square_signal t cl r m n p "MPA"
        = ((m + 1 - 0 : ℤ) : ℚ) * p + ((n - (m + 1) : ℤ) : ℚ) *
          (((n : ℚ) - (m : ℚ) * p) / ((n : ℚ) - (m : ℚ))) := by
      rw [← Finset.Ico_union_Ico_eq_Ico (show (0:ℤ) ≤ m + 1 by omega)
        (show m + 1 ≤ n by omega)]
      rw [Finset.sum_union (Finset.Ico_disjoint_Ico_consecutive 0 (m+1) n)]
      have h1 : ∑ r in Finset.Ico (0 : ℤ) (m + 1),
          square_signal t cl r m n p "MPA" = ((m + 1 - 0 : ℤ) : ℚ) * p := by
        apply sum_const_on_Ico _ _ _ _ (by omega)
        intro r hr
        simp only [Finset.mem_Ico] at hr
        rw [sig_mpa t cl p r m n hm0' hmn', if_pos (by omega)]
      have h2 : ∑ r in Finset.Ico (m + 1) n,
          square_signal t cl r m n p "MPA" = ((n - (m + 1) : ℤ) : ℚ) *
            (((n : ℚ) - (m : ℚ) * p) / ((n : ℚ) - (m : ℚ))) := by
        apply sum_const_on_Ico _ _ _ _ (by omega)
        intro r hr
        simp only [Finset.mem_Ico] at hr
        rw [sig_mpa t cl p r m n hm0' hmn', if_neg (by omega)]
        exact open_value_eq m n p hn hmn
      rw [h1, h2]
    rw [hsum, div_lt_one hnpos]
    have key : ((m + 1 - 0 : ℤ) : ℚ) * p + ((n - (m + 1) : ℤ) : ℚ) *
        (((n : ℚ) - (m : ℚ) * p) / ((n : ℚ) - (m : ℚ)))
        = (n : ℚ) - (n : ℚ) * (1 - p) / ((n : ℚ) - (m : ℚ)) := by
      field_simp
      ring
    rw [key]
    have hpos : (0 : ℚ) < (n : ℚ) * (1 - p) / ((n : ℚ) - (m : ℚ)) := by
      apply div_pos
      · nlinarith
      · exact hnm
    linarith


/-- Witness for C9 at `n = 3, m = 1, poaching = 0`: patches `0,1` are
closed, patch `2` is open, and the mean is below `1`. -/
theorem C9_witness :
    ((1 : ℤ) ≤ 3 ∧ (0 : ℤ) < 1 ∧ (1 : ℤ) < 3) ∧
      ((∀ r : ℤ, 0 ≤ r → r ≤ 1 → square_signal 0 1 r 1 3 0 "MPA" = 0) ∧
        (∀ r : ℤ, 1 < r → r < 3 → square_signal 0 1 r 1 3 0 "MPA" =
          (1 - ((1 : ℤ) : ℚ) / ((3 : ℤ) : ℚ) * 0) /
            (1 - ((1 : ℤ) : ℚ) / ((3 : ℤ) : ℚ))) ∧
        ((0 : ℚ) < 1 →
          (∑ r in Finset.Ico (0 : ℤ) 3, square_signal 0 1 r 1 3 0 "MPA")
            / ((3 : ℤ) : ℚ) < 1)) :=
  ⟨by norm_num, C9_MPA_split_mean_lt_one 0 1 0 1 3 (by norm_num) (by norm_num)
    (by norm_num)⟩

/-! ## C10: dispersal conserves total fish -/

/-- C10: for every `n ≥ 1` and every `frac_nomove`, each column of the
dispersal matrix `kP` built by `initialize_patch_model` sums to exactly
zero, as does each row, and consequently for every state `X` the per-patch
dispersal influx values computed in `patch_system` sum to exactly zero over
all patches. -/
theorem C10_dispersal_conserves (n : ℕ) (fnm : ℚ) (hn : 1 ≤ n) :
    (∀ j ∈ Finset.range n,
        ∑ i in Finset.range n, kP_matrix n fnm i j = 0) ∧
      (∀ i ∈ Finset.range n,
        ∑ j in Finset.range n, kP_matrix n fnm i j = 0) ∧
      (∀ X : ℕ → ℚ,
        ∑ i in Finset.range n, P_influx n (kP_matrix n fnm) X i = 0) := by
  have hcol : ∀ j ∈ Finset.range n,
      ∑ i in Finset.range n, kP_matrix n fnm i j = 0 := by
    intro j hj
    rw [← Finset.add_sum_erase _ _ hj]
    have hdiag : kP_matrix n fnm j j = -(frac_dispersed n fnm) * ((n : ℚ) - 1) := by
      unfold kP_matrix
      rw [if_pos rfl]
    have hoff : ∑ i in (Finset.range n).erase j, kP_matrix n fnm i j =
        ((n : ℚ) - 1) * frac_dispersed n fnm := by
      rw [Finset.sum_congr rfl (fun i hi => ?_), Finset.sum_const, nsmul_eq_mul]
      · rw [Finset.card_erase_of_mem hj, Finset.card_range]
        have h1 : ((n - 1 : ℕ) : ℚ) = (n : ℚ) - 1 := by
          have : 1 ≤ (n : ℚ) := by exact_mod_cast hn
          push_cast [Nat.cast_sub hn]
          ring
        rw [h1]
      · unfold kP_matrix
        rw [if_neg (Finset.ne_of_mem_erase hi)]
    rw [hdiag, hoff]
    ring
  refine ⟨hcol, ?_, ?_⟩
  · intro i hi
    rw [← Finset.add_sum_erase _ _ hi]
    have hdiag : kP_matrix n fnm i i = -(frac_dispersed n fnm) * ((n : ℚ) - 1) := by
      unfold kP_matrix
      rw [if_pos rfl]
    have hoff : ∑ j in (Finset.range n).erase i, kP_matrix n fnm i j =
        ((n : ℚ) - 1) * frac_dispersed n fnm := by
      rw [Finset.sum_congr rfl (fun j hj => ?_), Finset.sum_const, nsmul_eq_mul]
      · rw [Finset.card_erase_of_mem hi, Finset.card_range]
        have h1 : ((n - 1 : ℕ) : ℚ) = (n : ℚ) - 1 := by
          push_cast [Nat.cast_sub hn]
          ring
        rw [h1]
      · unfold kP_matrix
        rw [if_neg (fun h => Finset.ne_of_mem_erase hj h.symm)]
    rw [hdiag, hoff]
    ring
  · intro X
    unfold P_influx
    rw [Finset.sum_comm]
    rw [Finset.sum_congr rfl (fun j hj => ?_)]
    · exact Finset.sum_const_zero
    · rw [← Finset.sum_mul, hcol j hj, zero_mul]

/-- Witness for C10 at `n = 3`, `frac_nomove = 1/4`, `X = const 1`. -/
theorem C10_witness :
    (1 ≤ 3) ∧
      (∀ j ∈ Finset.range 3,
          ∑ i in Finset.range 3, kP_matrix 3 (1/4) i j = 0) ∧
        (∀ i ∈ Finset.range 3,
          ∑ j in Finset.range 3, kP_matrix 3 (1/4) i j = 0) ∧
        (∀ X : ℕ → ℚ,
          ∑ i in Finset.range 3, P_influx 3 (kP_matrix 3 (1/4)) X i = 0) :=
  ⟨by norm_num, C10_dispersal_conserves 3 (1/4) (by norm_num)⟩

/-! ## C2: the bisection resets the untouched bound to its default -/

/-- C2 (code evaluation at the failing drift pattern): starting from the
bracket `[0.1, 0.7]` at depth `9` with a drift that is positive below `1/2`
and negative above it, the first step accepts `midpoint = 2/5` as a lower
bound ("going up"), but the second recursive call — "going down" at midpoint
`11/20` — passes only `highC = 11/20` and lets `lowC` revert to the default
`0.1`, so the routine returns `(0.1 + 0.55)/2 = 13/40`: a value strictly
below the lower bound `2/5` that a bracket-keeping bisection would have
retained.  The bracket therefore does not halve at every step. -/
theorem C2_bracket_reset_eval :
    find_unstable_equilibrium driftToHalf (1/10) (7/10) 9 = 13/40 ∧
      (13/40 : ℚ) < 2/5 := by
  constructor
  · have s1 : find_unstable_equilibrium driftToHalf (1/10) (7/10) 9
        = find_unstable_equilibrium driftToHalf (2/5) 0.7 10 := by
      rw [find_unstable_equilibrium]
      norm_num [driftToHalf]
    have s2 : find_unstable_equilibrium driftToHalf (2/5) 0.7 10
        = find_unstable_equilibrium driftToHalf 0.1 (11/20) 11 := by
      rw [find_unstable_equilibrium]
      norm_num [driftToHalf]
    have s3 : find_unstable_equilibrium driftToHalf 0.1 (11/20) 11
        = 13/40 := by
      rw [find_unstable_equilibrium]
      norm_num
    rw [s1, s2, s3]
  · norm_num

/-! ## C3: the never-crossed sentinel is returned as `-1 + 10 = 9` -/

/-- C3 (code evaluation at the failing input): on a coral trajectory that
never exceeds the `vdL` threshold `0.7`, `get_coral_recovery_time` returns
`-1 + 10 = 9`, not the sentinel `-1` that callers (`scenario_plot`) test
for; on a trajectory first exceeding the threshold at index `2` it returns
`2 + 10 = 12` as the claim describes. -/
theorem C3_sentinel_plus_ten_eval :
    get_coral_recovery_time "vdL" [0, 0, 0] = 9 ∧
      get_coral_recovery_time "vdL" [0, 0, 8/10, 0] = 12 := by
  have h1 : (if ("vdL" : String) = "RB" then (0.5 : ℚ)
      else if ("vdL" : String) = "BM" then 0.54 else 0.7) = 0.7 := by
    rw [if_neg (by decide), if_neg (by decide)]
  constructor <;>
    · simp only [get_coral_recovery_time, h1]
      norm_num

/-! ## C5: the leemput fishing term is linear, not sigmoid-saturating -/

/-- C5 (amended): in the `leemput` kernel the fish depletion due to fishing —
the difference between the `dP` component computed with fishing coefficient
`f` and with `f = 0` — equals exactly `f * P[i] * multiplier`: it is linear
in the local fish density `P[i]` and unbounded in it, not a logistic
function of `P[i]` saturating at `f`.  The sigmoid helper `fishing()` defined
in the source is not called by `leemput`. -/
theorem C5_fishing_term_linear (X : ℕ → ℚ) (t : ℚ) (i : ℕ) (md : Model)
    (pf : ℕ → ℚ) :
    (leemput X t i md pf).getD 0 0 =
      (leemput X t i { md with f := 0 } pf).getD 0 0 -
        md.f * X i * square_signal t md.closure_length (i : ℤ) md.m
          (md.n : ℤ) md.poaching md.mgmt_strat := by
  simp only [leemput, List.getD_cons_zero]
  ring

/-- Counterexample to C5 as stated: with `f = 1`, multiplier `1` (MPA with
`m = 0`) and local fish density `P[0] = 2`, the `dP` component of `leemput`
is `-2`: the fishing depletion is `2`, strictly above the saturation value
`f * multiplier = 1` that a logistic term saturating at the configured
fishing intensity could never exceed. -/
theorem C5_counterexample :
    (leemput (fun j => if j = 0 then (2 : ℚ) else 0) 0 0
        { mdBase with f := 1 } (fun _ => 0)).getD 0 0 = -2 ∧
      (1 : ℚ) * square_signal 0 0 0 0 1 0 "MPA" = 1 ∧ ((1 : ℚ) < 2) := by
  have hsig : square_signal 0 0 0 0 1 0 "MPA" = 1 := by
    unfold square_signal
    rw [if_neg (by decide), if_pos rfl, if_pos rfl]
  refine ⟨?_, ?_, by norm_num⟩
  · simp only [leemput, List.getD_cons_zero, mdBase, K]
    norm_num [hsig]
  · rw [hsig, one_mul]

/-! ## C4: every unrecognized tag falls back to Blackwood-Mumby -/

/-- C4 (amended): for every `model_type` string outside the six recognized
families, `patch_system` does not raise a configuration error: its `else`
branch prints a warning and computes Blackwood-Mumby dynamics, so the
derivative vector is identical to the one produced with `model_type = "BM"`.
The fallback is not limited to a single legacy default. -/
theorem C4_fallback_all_unrecognized (md : Model) (X : ℕ → ℚ) (t : ℚ)
    (sty : String)
    (h : sty ∉ (["vdL", "vdL_MC", "vdL_MP", "vdL_PC", "BM", "RB"] :
      List String)) :
    (patch_system X t { md with model_type := sty }).2 =
      (patch_system X t { md with model_type := "BM" }).2 := by
  simp only [List.mem_cons, List.not_mem_nil, or_false, not_or] at h
  obtain ⟨h1, h2, h3, h4, h5, h6⟩ := h
  have hres : patch_rhs X t { md with model_type := sty } =
      patch_rhs X t { md with model_type := "BM" } := by
    funext pf i
    dsimp only [patch_rhs]
    rw [if_neg h6, if_neg h5, if_neg h4, if_neg h3, if_neg h2, if_neg h1]
    rw [if_neg (by decide), if_pos rfl]
    rfl
  unfold patch_system
  dsimp only
  rw [if_neg h6, if_neg (by decide), hres]

/-- Counterexample to C4 as stated: the unrecognized tag `"xyz"` (which is
not the legacy default) silently produces Blackwood-Mumby dynamics — the
same nonzero derivative vector `[1/4, 0, 0]` that `model_type = "BM"`
produces at the same state — instead of being a configuration error. -/
theorem C4_counterexample :
    (patch_system (fun j => if j = 0 then (1/2 : ℚ) else 0) 0
        { mdBase with model_type := "xyz", s := 1 }).2 = [1/4, 0, 0] ∧
      (patch_system (fun j => if j = 0 then (1/2 : ℚ) else 0) 0
        { mdBase with model_type := "BM", s := 1 }).2 = [1/4, 0, 0] := by
  have hsig : square_signal 0 0 0 0 1 0 "MPA" = 1 := by
    unfold square_signal
    rw [if_neg (by decide), if_pos rfl, if_pos rfl]
  constructor <;>
    · unfold patch_system
      rw [if_neg (by decide)]
      dsimp only
      simp +decide only [patch_rhs, blackwood, BMK, P_influx, mdBase,
        List.map_cons, List.map_nil]
      norm_num [hsig, show List.range 1 = [0] from rfl]

/-- Witness for C4 at `sty = "xyz"` and the base model. -/
theorem C4_witness :
    ("xyz" ∉ (["vdL", "vdL_MC", "vdL_MP", "vdL_PC", "BM", "RB"] :
        List String)) ∧
      (patch_system (fun _ => 0) 0 { mdBase with model_type := "xyz" }).2 =
        (patch_system (fun _ => 0) 0 { mdBase with model_type := "BM" }).2 :=
  ⟨by decide,
    C4_fallback_all_unrecognized mdBase (fun _ => 0) 0 "xyz" (by decide)⟩

/-! ## C6: `patch_system` mutates the scratch arrays, nothing else -/

/-- C6 (amended): `patch_system` does mutate the model object — it writes
the scratch derivative arrays — but every configuration and management
field (tag, strategy, patch count, dispersal data, fishing/closure
parameters and all biological parameters) is left unchanged by the
evaluation. -/
theorem C6_frame_preserved (X : ℕ → ℚ) (t : ℚ) (md : Model) :
    (patch_system X t md).1.model_type = md.model_type ∧
    (patch_system X t md).1.mgmt_strat = md.mgmt_strat ∧
    (patch_system X t md).1.n = md.n ∧
    (patch_system X t md).1.frac_nomove = md.frac_nomove ∧
    (patch_system X t md).1.kP = md.kP ∧
    (patch_system X t md).1.f = md.f ∧
    (patch_system X t md).1.closure_length = md.closure_length ∧
    (patch_system X t md).1.m = md.m ∧
    (patch_system X t md).1.poaching = md.poaching ∧
    (patch_system X t md).1.r = md.r ∧
    (patch_system X t md).1.i_C = md.i_C ∧
    (patch_system X t md).1.i_M = md.i_M ∧
    (patch_system X t md).1.gamma = md.gamma ∧
    (patch_system X t md).1.d = md.d ∧
    (patch_system X t md).1.g = md.g ∧
    (patch_system X t md).1.s = md.s ∧
    (patch_system X t md).1.sigma = md.sigma ∧
    (patch_system X t md).1.eta = md.eta ∧
    (patch_system X t md).1.alpha = md.alpha ∧
    (patch_system X t md).1.beta = md.beta ∧
    (patch_system X t md).1.a = md.a ∧
    (patch_system X t md).1.phiC = md.phiC ∧
    (patch_system X t md).1.phiM = md.phiM ∧
    (patch_system X t md).1.rM = md.rM ∧
    (patch_system X t md).1.gTC = md.gTC ∧
    (patch_system X t md).1.gTV = md.gTV ∧
    (patch_system X t md).1.gTI = md.gTI ∧
    (patch_system X t md).1.rH = md.rH ∧
    (patch_system X t md).1.omega = md.omega ∧
    (patch_system X t md).1.dC = md.dC ∧
    (patch_system X t md).1.dI = md.dI ∧
    (patch_system X t md).1.dV = md.dV ∧
    (patch_system X t md).1.K = md.K ∧
    (patch_system X t md).1.Graze = md.Graze := by
  unfold patch_system
  dsimp only
  split <;>
    exact ⟨rfl, rfl, rfl, rfl, rfl, rfl, rfl, rfl, rfl, rfl, rfl, rfl, rfl,
      rfl, rfl, rfl, rfl, rfl, rfl, rfl, rfl, rfl, rfl, rfl, rfl, rfl, rfl,
      rfl, rfl, rfl, rfl, rfl, rfl, rfl⟩

/-- Counterexample to C6 as stated: at a concrete state the evaluation of
`patch_system` changes the model object — the scratch field `dPs` stored on
it goes from the allocated `0` to the computed derivative `1/4`, so the
model after the call differs from the model before it. -/
theorem C6_counterexample :
    (patch_system (fun j => if j = 0 then (1/2 : ℚ) else 0) 0
        { mdBase with s := 1 }).1 ≠ { mdBase with s := 1 } := by
  intro h
  have h0 := congrArg (fun z : Model => z.dPs 0) h
  have hsig : square_signal 0 0 0 0 1 0 "MPA" = 1 := by
    unfold square_signal
    rw [if_neg (by decide), if_pos rfl, if_pos rfl]
  unfold patch_system at h0
  rw [if_neg (by decide)] at h0
  simp +decide only [patch_rhs, leemput, K, P_influx, mdBase,
    List.getD_cons_zero] at h0
  norm_num [hsig] at h0
